import Mathlib

/-!
Verification of the resource-grouping component of `bravado_core`
(`bravado_core/resource.py`): `convert_path_to_resource`, `build_resources`
and the `Resource` container.

Embedding choices:
* Python strings are Lean `String`s; the character-level operations
  `str.lstrip('/')` and `str.split('/')` are embedded as functions on
  `List Char` (`lstripSlash`, `splitSlash`) applied to `String.data`.
* Python `dict`s are association lists with Python's update semantics:
  updating an existing key keeps its position, a fresh key is appended
  (insertion order), and lookup returns the unique binding.
* Raised exceptions (`SwaggerMappingError`, `AttributeError`) are
  `Except.error` carrying the formatted message string.
* The swagger spec tree is taken already dereferenced: the external
  collaborators `resolve` / `resolve_iteritems` / `resolve_list` become
  identities over an explicit tree of paths, method entries and tag lists.
* The external `Operation.from_spec` factory is modelled from the spec:
  an `Operation` is built per (path, method, fragment) triple and exposes
  an `operation_id`; provenance fields make distinct entries yield
  distinct values, so value equality stands in for object identity.
-/

set_option autoImplicit false

namespace BravadoCore

/-- Python `str.lstrip('/')`: remove every leading `'/'` character. -/
def lstripSlash : List Char → List Char
  | [] => []
  | c :: cs => if c = '/' then lstripSlash cs else c :: cs

/-- Python `str.split('/')`: split on every `'/'`, keeping empty tokens;
the empty string yields `[[]]` (Python: `"".split('/') == ['']`). -/
def splitSlash : List Char → List (List Char)
  | [] => [[]]
  | c :: cs =>
    if c = '/' then [] :: splitSlash cs
    else
      match splitSlash cs with
      | t :: ts => (c :: t) :: ts
      | [] => [[c]]

/-- `convert_path_to_resource` from `bravado_core/resource.py`:
`tokens = path_name.lstrip('/').split('/')`; `resource_name = tokens[0]`;
raise `SwaggerMappingError` when `resource_name` is falsy (empty). -/
def convert_path_to_resource (path_name : String) : Except String String :=
  let tokens := splitSlash (lstripSlash path_name.data)
  let resource_name : List Char := tokens.headD []
  if resource_name.isEmpty then
    Except.error ("Could not extract resource name from path " ++ path_name)
  else
    Except.ok (String.mk resource_name)

/-- An operation fragment of the (already dereferenced) swagger spec: the
declared tag list (`resolve_list(resolve(op_spec, 'tags', []))`) and the
`operation_id` the constructed Operation will expose. -/
structure OpSpec where
  tags : List String
  operation_id : String
deriving DecidableEq, Repr

/-- Modelled from the spec: the external Operation factory
(`Operation.from_spec`, not part of this component) returns an opaque
Operation built per (path, HTTP method, operation fragment) triple,
exposing at least an `operation_id` string attribute.  The Operation
keeps its constructor arguments, so operations built from distinct
entries are distinct values even when their `operation_id`s collide:
value equality stands in for Python object identity. -/
structure Operation where
  path_name : String
  http_method : String
  op_spec : OpSpec
deriving DecidableEq, Repr

/-- Modelled from the spec: `Operation.from_spec(swagger_spec, path_name,
http_method, op_spec)` constructs a fresh Operation for the entry. -/
def Operation.from_spec (path_name http_method : String) (op_spec : OpSpec) :
    Operation :=
  { path_name := path_name
    http_method := http_method
    op_spec := op_spec }

/-- The `operation_id` a constructed Operation exposes: modelled from the
spec, taken from its operation fragment. -/
def Operation.operation_id (op : Operation) : String :=
  op.op_spec.operation_id

/-- The dereferenced `paths` collection of a swagger spec: each path name
maps to its method entries (an entry keyed `"parameters"` is a shared
parameter declaration, not an operation). -/
structure Spec where
  paths : List (String × List (String × OpSpec))
deriving DecidableEq, Repr

/-- Python `dict` lookup (`d.get(k)`): the binding of `k`, if any. -/
def dictGet {β : Type} (k : String) : List (String × β) → Option β
  | [] => none
  | (k', v) :: rest => if k' = k then some v else dictGet k rest

/-- Python `dict` store (`d[k] = v`): replace the binding of `k` in place,
or append a fresh binding at the end (insertion order). -/
def dictInsert {β : Type} (k : String) (v : β) :
    List (String × β) → List (String × β)
  | [] => [(k, v)]
  | (k', v') :: rest =>
    if k' = k then (k', v) :: rest else (k', v') :: dictInsert k v rest

/-- The value stored in a `Resource.operations` dict: an Operation object or
Python `None` (`none`).  `build_resources` only ever stores Operations, but
an arbitrary caller of `Resource(name, ops)` may store `None`. -/
abbrev OpVal := Option Operation

/-- `{ operation_id : Operation }` — one tag's bucket. -/
abbrev OpsMap := List (String × OpVal)

/-- `tag_to_ops : defaultdict(dict)` — `{ tag_name : { operation_id : Operation } }`. -/
abbrev TagMap := List (String × OpsMap)

/-- `tag_to_ops[tag][op.operation_id] = op`: the defaultdict materialises an
empty bucket for a fresh tag, then the bucket stores `op` under its id. -/
def tagInsert (tag op_id : String) (op : Operation) (m : TagMap) : TagMap :=
  dictInsert tag (dictInsert op_id (some op) ((dictGet tag m).getD [])) m

/-- The effective tag list of one method entry (lines 64-67 of
`resource.py`): the declared tags, or, when empty, the singleton synthetic
tag derived from the path name (which may raise). -/
def effectiveTags (path_name : String) (op_spec : OpSpec) :
    Except String (List String) :=
  if op_spec.tags.isEmpty then
    (convert_path_to_resource path_name).map (fun r => [r])
  else
    Except.ok op_spec.tags

/-- The body of the inner loop of `build_resources` for one
`(http_method, op_spec)` entry under `path_name`: skip `"parameters"`,
build the Operation, resolve the tags, insert the Operation into every
tag's bucket. -/
def processEntry (path_name : String) (acc : TagMap) :
    String × OpSpec → Except String TagMap
  | (http_method, op_spec) =>
    if http_method = "parameters" then
      Except.ok acc
    else
      (effectiveTags path_name op_spec).map (fun tags =>
        tags.foldl
          (fun m tag =>
            tagInsert tag (Operation.from_spec path_name http_method op_spec).operation_id
              (Operation.from_spec path_name http_method op_spec) m)
          acc)

/-- The two nested loops of `build_resources`, producing `tag_to_ops`. -/
def buildTagMap (spec : Spec) : Except String TagMap :=
  spec.paths.foldlM
    (fun acc pe => pe.2.foldlM (processEntry pe.1) acc) []

/-- The `Resource` class: a tag name together with its operations dict. -/
structure Resource where
  name : String
  operations : OpsMap
deriving DecidableEq, Repr

/-- `build_resources`: group every operation entry into tag buckets, then
wrap each bucket as `Resource(tag, ops)` keyed by its tag. -/
def build_resources (spec : Spec) : Except String (List (String × Resource)) :=
  (buildTagMap spec).map (fun m =>
    m.map (fun pr => (pr.1, Resource.mk pr.1 pr.2)))

/-- `Resource.__getattr__`: `op = self.operations.get(item)`; raise
`AttributeError` when `op` is falsy (absent key or stored `None`). -/
def Resource.getattr (r : Resource) (item : String) : Except String Operation :=
  match (dictGet item r.operations).getD none with
  | none =>
    Except.error
      ("Resource '" ++ r.name ++ "' has no operation '" ++ item ++ "'")
  | some op => Except.ok op

/-- `Resource.__dir__`: the list of operation names. -/
def Resource.dirNames (r : Resource) : List String :=
  r.operations.map Prod.fst

/-! ### Association-list (Python dict) lemmas -/

theorem dictGet_nil {β : Type} (k : String) : dictGet k ([] : List (String × β)) = none := rfl

theorem dictGet_cons {β : Type} (k k' : String) (v : β) (m : List (String × β)) :
    dictGet k ((k', v) :: m) = if k' = k then some v else dictGet k m := rfl

theorem dictGet_dictInsert_self {β : Type} (k : String) (v : β) (m : List (String × β)) :
    dictGet k (dictInsert k v m) = some v := by
  induction m with
  | nil => simp [dictGet, dictInsert]
  | cons pr rest ih =>
    obtain ⟨k', v'⟩ := pr
    by_cases h : k' = k <;> simp [dictGet, dictInsert, h, ih]

theorem dictGet_dictInsert_ne {β : Type} (k k' : String) (v : β)
    (m : List (String × β)) (h : k' ≠ k) :
    dictGet k (dictInsert k' v m) = dictGet k m := by
  induction m with
  | nil => simp [dictGet, dictInsert, h]
  | cons pr rest ih =>
    obtain ⟨k'', v''⟩ := pr
    by_cases h' : k'' = k'
    · subst h'
      simp [dictGet, dictInsert, h]
    · simp [dictGet, dictInsert, h', ih]

theorem dictInsert_ne_nil {β : Type} (k : String) (v : β) (m : List (String × β)) :
    dictInsert k v m ≠ [] := by
  cases m with
  | nil => simp [dictInsert]
  | cons pr rest =>
    obtain ⟨k', v'⟩ := pr
    by_cases h : k' = k <;> simp [dictInsert, h]

theorem snd_of_mem_dictInsert {β : Type} (k : String) (v : β)
    (m : List (String × β)) (pr : String × β) (hpr : pr ∈ dictInsert k v m) :
    pr.2 = v ∨ pr ∈ m := by
  induction m with
  | nil =>
    simp [dictInsert] at hpr
    subst hpr
    exact Or.inl rfl
  | cons hd rest ih =>
    obtain ⟨k', v'⟩ := hd
    by_cases h : k' = k
    · simp [dictInsert, h] at hpr
      rcases hpr with h' | h'
      · subst h'
        exact Or.inl rfl
      · exact Or.inr (List.mem_cons_of_mem _ h')
    · simp [dictInsert, h] at hpr
      rcases hpr with h' | h'
      · subst h'
        exact Or.inr (List.mem_cons_self _ _)
      · rcases ih h' with h'' | h''
        · exact Or.inl h''
        · exact Or.inr (List.mem_cons_of_mem _ h'')

/-! ### Character-level lemmas about `lstripSlash` and `splitSlash` -/

theorem lstripSlash_eq_dropWhile (l : List Char) :
    lstripSlash l = l.dropWhile (fun c => c = '/') := by
  induction l with
  | nil => rfl
  | cons c cs ih =>
    by_cases h : c = '/' <;> simp [lstripSlash, List.dropWhile, h, ih]

theorem splitSlash_ne_nil (l : List Char) : splitSlash l ≠ [] := by
  cases l with
  | nil => simp [splitSlash]
  | cons c cs =>
    by_cases h : c = '/'
    · simp [splitSlash, h]
    · simp only [splitSlash, if_neg h]
      cases hs : splitSlash cs with
      | nil => simp
      | cons t ts => simp

theorem splitSlash_headD (l : List Char) :
    (splitSlash l).headD [] = l.takeWhile (fun c => ¬ c = '/') := by
  induction l with
  | nil => rfl
  | cons c cs ih =>
    by_cases h : c = '/'
    · simp [splitSlash, List.takeWhile, h]
    · simp only [splitSlash, if_neg h]
      cases hs : splitSlash cs with
      | nil => exact absurd hs (splitSlash_ne_nil cs)
      | cons t ts =>
        rw [hs] at ih
        simp only [List.headD_cons] at ih
        rw [List.headD_cons, List.takeWhile_cons_of_pos (by simp [h]), ih]

/-- The first non-empty token of `splitSlash` is the first maximal run of
non-`'/'` characters, and it exists exactly when some character is not `'/'`. -/
theorem splitSlash_find_nonempty (l : List Char) :
    (splitSlash l).find? (fun t => !t.isEmpty) =
      if (l.dropWhile (fun c => c = '/')).isEmpty then none
      else some ((l.dropWhile (fun c => c = '/')).takeWhile (fun c => ¬ c = '/')) := by
  induction l with
  | nil => rfl
  | cons c cs ih =>
    by_cases h : c = '/'
    · rw [show splitSlash (c :: cs) = [] :: splitSlash cs by simp [splitSlash, h]]
      rw [List.find?_cons_of_neg _ (by simp)]
      rw [List.dropWhile_cons_of_pos (by simp [h])]
      exact ih
    · rw [List.dropWhile_cons_of_neg (by simp [h])]
      simp only [splitSlash, if_neg h]
      cases hs : splitSlash cs with
      | nil => exact absurd hs (splitSlash_ne_nil cs)
      | cons t ts =>
        have ht : t = cs.takeWhile (fun c => ¬ c = '/') := by
          have h2 := splitSlash_headD cs
          rw [hs] at h2
          simpa using h2
        rw [List.find?_cons_of_pos _ (by simp)]
        rw [List.takeWhile_cons_of_pos (by simp [h])]
        simp [ht]

/-- The first token is empty exactly when stripping the leading slashes
leaves nothing (i.e. the path is all slashes or empty). -/
theorem dropWhile_takeWhile_isEmpty (l : List Char) :
    ((l.dropWhile (fun c => c = '/')).takeWhile (fun c => ¬ c = '/')).isEmpty
      = (l.dropWhile (fun c => c = '/')).isEmpty := by
  induction l with
  | nil => rfl
  | cons c cs ih =>
    by_cases h : c = '/'
    · rw [List.dropWhile_cons_of_pos (by simp [h])]
      exact ih
    · rw [List.dropWhile_cons_of_neg (by simp [h]),
        List.takeWhile_cons_of_pos (by simp [h])]
      simp

/-- `convert_path_to_resource` computed in closed form: the result is the
first maximal run of non-`'/'` characters after dropping all leading
slashes, or the error when that run is empty. -/
theorem convert_path_to_resource_eq (p : String) :
    convert_path_to_resource p =
      if ((p.data.dropWhile (fun c => c = '/')).takeWhile (fun c => ¬ c = '/')).isEmpty then
        Except.error ("Could not extract resource name from path " ++ p)
      else
        Except.ok (String.mk
          ((p.data.dropWhile (fun c => c = '/')).takeWhile (fun c => ¬ c = '/'))) := by
  unfold convert_path_to_resource
  simp only [lstripSlash_eq_dropWhile, splitSlash_headD]

/-- Specification-side notion for C2: the first non-empty `'/'`-separated
segment of a path, if any. -/
def firstNonemptySegment (p : String) : Option String :=
  ((splitSlash p.data).find? (fun t => !t.isEmpty)).map (fun t => String.mk t)

/-- C2: whenever the path has a non-empty segment,
`convert_path_to_resource` returns exactly the first such segment; it
raises the `MappingError` naming the offending path precisely when the
first token is empty (no non-empty segment), and that is its only error
condition. -/
theorem convert_path_first_segment (p : String) :
    (∀ seg, firstNonemptySegment p = some seg →
        convert_path_to_resource p = Except.ok seg) ∧
    (firstNonemptySegment p = none ↔
        convert_path_to_resource p =
          Except.error ("Could not extract resource name from path " ++ p)) := by
  unfold firstNonemptySegment
  rw [splitSlash_find_nonempty, convert_path_to_resource_eq]
  by_cases hed : (p.data.dropWhile (fun c => c = '/')).isEmpty
  · rw [if_pos hed, if_pos (by rw [dropWhile_takeWhile_isEmpty]; exact hed)]
    exact ⟨fun seg hseg => by simp at hseg, by simp⟩
  · rw [if_neg hed, if_neg (by rw [dropWhile_takeWhile_isEmpty]; exact hed)]
    refine ⟨fun seg hseg => ?_, by simp⟩
    simp only [Option.map_some', Option.some.injEq] at hseg
    rw [hseg]

/-- C2 witness: the contract at the spec's example paths. -/
theorem convert_path_first_segment_app :
    convert_path_to_resource "/pet/findByStatus" = Except.ok "pet" ∧
    convert_path_to_resource "/" =
      Except.error "Could not extract resource name from path /" ∧
    convert_path_to_resource "" =
      Except.error "Could not extract resource name from path " :=
  ⟨(convert_path_first_segment "/pet/findByStatus").1 "pet" rfl,
   (convert_path_first_segment "/").2.mp rfl,
   (convert_path_first_segment "").2.mp rfl⟩

/-- C3 counterexample: the code strips *all* leading slashes (Python
`lstrip('/')`), so a path starting with two slashes yields its first
non-slash run instead of raising a `MappingError`. -/
theorem convert_path_double_slash :
    convert_path_to_resource "//pet" = Except.ok "pet" := rfl

/-- C3 (amended): `convert_path_to_resource` strips all leading `'/'`
characters, splits the remainder on `'/'` and takes the first token,
raising only when that token is empty; in particular `"//pet"` yields
`"pet"`. -/
theorem convert_path_strip_all :
    (∀ p : String,
      convert_path_to_resource p =
        (let tokens := splitSlash (p.data.dropWhile (fun c => c = '/'))
         if (tokens.headD []).isEmpty then
           Except.error ("Could not extract resource name from path " ++ p)
         else Except.ok (String.mk (tokens.headD [])))) ∧
    convert_path_to_resource "//pet" = Except.ok "pet" := by
  refine ⟨fun p => ?_, rfl⟩
  unfold convert_path_to_resource
  rw [lstripSlash_eq_dropWhile]

/-- C7: attribute-style lookup on a `Resource` returns exactly the
Operation registered under the requested name, and raises the
`AttributeError` naming both the resource name and the requested name
precisely when no Operation is registered under it. -/
theorem getattr_lookup (r : Resource) (item : String) :
    (∀ op : Operation, r.getattr item = Except.ok op ↔
        dictGet item r.operations = some (some op)) ∧
    ((¬ ∃ op : Operation, dictGet item r.operations = some (some op)) ↔
      r.getattr item =
        Except.error
          ("Resource '" ++ r.name ++ "' has no operation '" ++ item ++ "'")) := by
  cases hd : dictGet item r.operations with
  | none => simp [Resource.getattr, hd]
  | some v =>
    cases v with
    | none => simp [Resource.getattr, hd]
    | some op' => simp [Resource.getattr, hd]

/-- C7 witness: `Resource("pet", {}).anything` raises the attribute error
naming both `pet` and `anything`. -/
theorem getattr_lookup_app :
    Resource.getattr ⟨"pet", []⟩ "anything" =
      Except.error "Resource 'pet' has no operation 'anything'" :=
  (getattr_lookup ⟨"pet", []⟩ "anything").2.mp
    (by rintro ⟨op, h⟩; simp [dictGet] at h)

/-- C10: lookup decides absence by the truthiness of the stored value: a
name bound to Python `None` raises the attribute error even though the
key is present in the operations dict. -/
theorem getattr_stored_none (r : Resource) (item : String)
    (h : dictGet item r.operations = some none) :
    r.getattr item =
      Except.error
        ("Resource '" ++ r.name ++ "' has no operation '" ++ item ++ "'") := by
  unfold Resource.getattr
  rw [h]
  rfl

/-- C10 witness: a key bound to `None` is present yet raises. -/
theorem getattr_stored_none_app :
    dictGet "x" (Resource.mk "pet" [("x", none)]).operations = some none ∧
    Resource.getattr ⟨"pet", [("x", none)]⟩ "x" =
      Except.error "Resource 'pet' has no operation 'x'" :=
  ⟨rfl, getattr_stored_none ⟨"pet", [("x", none)]⟩ "x" rfl⟩

/-! ### The insertion trace of `build_resources`

The two nested loops perform a sequence of `tagInsert`s, one *event* per
(tag, entry) pair.  Flattening the loops into that event list decouples
the bookkeeping of `tag_to_ops` from the iteration structure. -/

/-- One insertion `tag_to_ops[tag][op_id] = op`. -/
abbrev Event := String × String × Operation

/-- One non-`parameters` method entry: path name, HTTP method, fragment. -/
abbrev Entry := String × String × OpSpec

/-- Replay a list of insertion events on a `TagMap`. -/
def applyEvents (evs : List Event) (m : TagMap) : TagMap :=
  evs.foldl (fun m e => tagInsert e.1 e.2.1 e.2.2 m) m

/-- The payload of the last event writing cell `(tag, op_id)`, if any. -/
def lastWrite (tag op_id : String) : List Event → Option Operation
  | [] => none
  | e :: rest =>
    match lastWrite tag op_id rest with
    | some op => some op
    | none => if e.1 = tag ∧ e.2.1 = op_id then some e.2.2 else none

/-- The Operation stored in cell `(tag, op_id)` of a `TagMap`, if any. -/
def opAt (tag op_id : String) (m : TagMap) : Option Operation :=
  ((dictGet tag m).bind (fun ops => dictGet op_id ops)).bind id

/-- The insertion events contributed by one non-`parameters` entry: one
per effective tag, all sharing the entry's Operation. -/
def entryEvents : Entry → Except String (List Event)
  | (p, m, s) =>
    (effectiveTags p s).map (fun tags =>
      tags.map (fun t =>
        (t, (Operation.from_spec p m s).operation_id, Operation.from_spec p m s)))

/-- The concatenated insertion events of a list of entries, or the first
error raised while resolving an entry's tags. -/
def eventsOf : List Entry → Except String (List Event)
  | [] => Except.ok []
  | e :: rest =>
    match entryEvents e, eventsOf rest with
    | Except.ok evs, Except.ok evsRest => Except.ok (evs ++ evsRest)
    | Except.error msg, _ => Except.error msg
    | Except.ok _, Except.error msg => Except.error msg

/-- The non-`parameters` entries of one path, in iteration order. -/
def pathEntries (path_name : String) : List (String × OpSpec) → List Entry
  | [] => []
  | (m, s) :: rest =>
    if m = "parameters" then pathEntries path_name rest
    else (path_name, m, s) :: pathEntries path_name rest

/-- All operation entries processed by `build_resources`, in iteration
order, with the `parameters` entries skipped. -/
def specEntries (spec : Spec) : List Entry :=
  spec.paths.foldr (fun pe acc => pathEntries pe.1 pe.2 ++ acc) []

theorem operation_id_from_spec (p m : String) (s : OpSpec) :
    (Operation.from_spec p m s).operation_id = s.operation_id := rfl

theorem exceptBind_ok {α β : Type} (a : α) (f : α → Except String β) :
    (Except.ok a >>= f) = f a := rfl

theorem exceptBind_error {α β : Type} (msg : String) (f : α → Except String β) :
    ((Except.error msg : Except String α) >>= f) = Except.error msg := rfl

theorem exceptMap_ok {α β : Type} (a : α) (f : α → β) :
    Except.map f (Except.ok a : Except String α) = Except.ok (f a) := rfl

theorem exceptMap_error {α β : Type} (msg : String) (f : α → β) :
    Except.map f (Except.error msg : Except String α) = Except.error msg := rfl

theorem foldlM_cons {α β : Type} (f : β → α → Except String β) (b : β)
    (a : α) (l : List α) :
    (a :: l).foldlM f b = (f b a) >>= (fun b' => l.foldlM f b') := rfl

theorem applyEvents_nil (m : TagMap) : applyEvents [] m = m := rfl

theorem applyEvents_cons (e : Event) (evs : List Event) (m : TagMap) :
    applyEvents (e :: evs) m = applyEvents evs (tagInsert e.1 e.2.1 e.2.2 m) := rfl

theorem applyEvents_append (a b : List Event) (m : TagMap) :
    applyEvents (a ++ b) m = applyEvents b (applyEvents a m) := by
  simp [applyEvents, List.foldl_append]

theorem lastWrite_cons (t i : String) (e : Event) (evs : List Event) :
    lastWrite t i (e :: evs) =
      match lastWrite t i evs with
      | some op => some op
      | none => if e.1 = t ∧ e.2.1 = i then some e.2.2 else none := rfl

/-- A single `tagInsert` changes exactly its own cell. -/
theorem opAt_tagInsert (t i t' i' : String) (op : Operation) (m : TagMap) :
    opAt t i (tagInsert t' i' op m) =
      if t' = t ∧ i' = i then some op else opAt t i m := by
  unfold opAt tagInsert
  by_cases ht : t' = t
  · subst ht
    rw [dictGet_dictInsert_self, Option.some_bind]
    by_cases hi : i' = i
    · subst hi
      rw [dictGet_dictInsert_self]
      simp
    · rw [dictGet_dictInsert_ne _ _ _ _ hi]
      simp only [hi, and_false, if_false]
      cases hd : dictGet t' m with
      | none => simp [dictGet]
      | some ops => simp
  · rw [dictGet_dictInsert_ne _ _ _ _ ht]
    simp [ht]

/-- Replaying events computes the last write of every cell. -/
theorem opAt_applyEvents (t i : String) :
    ∀ (evs : List Event) (m : TagMap),
      opAt t i (applyEvents evs m) =
        match lastWrite t i evs with
        | some op => some op
        | none => opAt t i m
  | [], m => rfl
  | e :: evs, m => by
    rw [applyEvents_cons, opAt_applyEvents t i evs, lastWrite_cons, opAt_tagInsert]
    cases hlw : lastWrite t i evs with
    | some op => simp
    | none =>
      by_cases hm : e.1 = t ∧ e.2.1 = i
      · simp [hm]
      · simp [hm]

theorem lastWrite_eq_none (t i : String) (evs : List Event)
    (h : ∀ ev ∈ evs, ¬ (ev.1 = t ∧ ev.2.1 = i)) :
    lastWrite t i evs = none := by
  induction evs with
  | nil => rfl
  | cons e evs ih =>
    rw [lastWrite_cons, ih (fun ev hev => h ev (List.mem_cons_of_mem _ hev))]
    simp [h e (List.mem_cons_self _ _)]

/-- When every event matching a cell carries the same payload and at least
one matches, the last write is that payload. -/
theorem lastWrite_uniform (t i : String) (op : Operation) (evs : List Event)
    (hex : ∃ ev ∈ evs, ev.1 = t ∧ ev.2.1 = i)
    (hall : ∀ ev ∈ evs, ev.1 = t → ev.2.1 = i → ev.2.2 = op) :
    lastWrite t i evs = some op := by
  induction evs with
  | nil => simp at hex
  | cons e evs ih =>
    rw [lastWrite_cons]
    by_cases hm : ∃ ev ∈ evs, ev.1 = t ∧ ev.2.1 = i
    · rw [ih hm (fun ev hev => hall ev (List.mem_cons_of_mem _ hev))]
    · have hn : lastWrite t i evs = none := by
        apply lastWrite_eq_none
        intro ev hev hc
        exact hm ⟨ev, hev, hc⟩
      rw [hn]
      rcases hex with ⟨ev, hev, hev2⟩
      rcases List.mem_cons.mp hev with rfl | hev'
      · rw [if_pos hev2]
        rw [hall ev (List.mem_cons_self _ _) hev2.1 hev2.2]
      · exact absurd ⟨ev, hev', hev2⟩ hm

theorem eventsOf_cons (e : Entry) (rest : List Entry) :
    eventsOf (e :: rest) =
      match entryEvents e, eventsOf rest with
      | Except.ok evs, Except.ok evsRest => Except.ok (evs ++ evsRest)
      | Except.error msg, _ => Except.error msg
      | Except.ok _, Except.error msg => Except.error msg := rfl

theorem eventsOf_append (l1 l2 : List Entry) :
    eventsOf (l1 ++ l2) =
      match eventsOf l1, eventsOf l2 with
      | Except.ok a, Except.ok b => Except.ok (a ++ b)
      | Except.error msg, _ => Except.error msg
      | Except.ok _, Except.error msg => Except.error msg := by
  induction l1 with
  | nil =>
    rw [List.nil_append]
    cases eventsOf l2 <;> rfl
  | cons e l1 ih =>
    rw [List.cons_append, eventsOf_cons, ih, eventsOf_cons]
    cases entryEvents e <;> cases eventsOf l1 <;> cases eventsOf l2 <;>
      simp [List.append_assoc]

/-- The inner loop over one path's method entries replays exactly the
events of that path's non-`parameters` entries. -/
theorem foldlM_processEntry (p : String) :
    ∀ (mes : List (String × OpSpec)) (acc : TagMap),
      mes.foldlM (processEntry p) acc =
        (eventsOf (pathEntries p mes)).map (fun evs => applyEvents evs acc)
  | [], acc => rfl
  | (m, s) :: rest, acc => by
    rw [foldlM_cons]
    by_cases hm : m = "parameters"
    · subst hm
      rw [show processEntry p acc ("parameters", s) = Except.ok acc from by
            simp [processEntry]]
      rw [exceptBind_ok,
        show pathEntries p (("parameters", s) :: rest) = pathEntries p rest from by
          simp [pathEntries]]
      exact foldlM_processEntry p rest acc
    · rw [show pathEntries p ((m, s) :: rest) = (p, m, s) :: pathEntries p rest from by
            simp [pathEntries, hm]]
      rw [eventsOf_cons]
      have hpe : processEntry p acc (m, s) =
          (effectiveTags p s).map (fun tags =>
            applyEvents (tags.map (fun t =>
              (t, (Operation.from_spec p m s).operation_id,
                Operation.from_spec p m s))) acc) := by
        simp [processEntry, hm, applyEvents, List.foldl_map]
      rw [hpe]
      cases het : effectiveTags p s with
      | error msg =>
        simp only [entryEvents, het, exceptMap_error, exceptBind_error]
      | ok tags =>
        simp only [entryEvents, het, exceptMap_ok, exceptBind_ok]
        rw [foldlM_processEntry p rest]
        cases her : eventsOf (pathEntries p rest) with
        | error msg2 => rfl
        | ok evs2 => simp [exceptMap_ok, applyEvents_append]

/-- The two nested loops of `build_resources` replay exactly the events of
all processed entries, in iteration order. -/
theorem foldlM_paths :
    ∀ (paths : List (String × List (String × OpSpec))) (acc : TagMap),
      paths.foldlM (fun acc pe => pe.2.foldlM (processEntry pe.1) acc) acc =
        (eventsOf (paths.foldr (fun pe l => pathEntries pe.1 pe.2 ++ l) [])).map
          (fun evs => applyEvents evs acc)
  | [], acc => rfl
  | pe :: rest, acc => by
    rw [foldlM_cons, List.foldr_cons, eventsOf_append]
    rw [foldlM_processEntry pe.1 pe.2 acc]
    cases h1 : eventsOf (pathEntries pe.1 pe.2) with
    | error msg => rfl
    | ok evs1 =>
      rw [exceptMap_ok, exceptBind_ok]
      rw [foldlM_paths rest (applyEvents evs1 acc)]
      cases h2 : eventsOf (rest.foldr (fun pe l => pathEntries pe.1 pe.2 ++ l) []) with
      | error msg => rfl
      | ok evs2 => simp [exceptMap_ok, applyEvents_append]

theorem buildTagMap_eq (spec : Spec) :
    buildTagMap spec =
      (eventsOf (specEntries spec)).map (fun evs => applyEvents evs []) :=
  foldlM_paths spec.paths []

theorem opAt_eq_some_iff (t i : String) (m : TagMap) (op : Operation) :
    opAt t i m = some op ↔
      ∃ ops, dictGet t m = some ops ∧ dictGet i ops = some (some op) := by
  unfold opAt
  cases hd : dictGet t m with
  | none => simp
  | some ops =>
    cases hi : dictGet i ops with
    | none => simp [hi]
    | some v => cases v <;> simp [hi]

theorem dictGet_resources (tm : TagMap) (t : String) :
    dictGet t (tm.map (fun pr => (pr.1, Resource.mk pr.1 pr.2))) =
      (dictGet t tm).map (fun ops => Resource.mk t ops) := by
  induction tm with
  | nil => rfl
  | cons pr rest ih =>
    obtain ⟨k, ops⟩ := pr
    by_cases h : k = t
    · subst h
      simp [dictGet]
    · simp [dictGet, h, ih]

/-- Decomposition of a successful `build_resources` run: the events of all
entries resolved without error, and the result wraps the replayed map. -/
theorem build_resources_ok (spec : Spec) (res : List (String × Resource))
    (h : build_resources spec = Except.ok res) :
    ∃ evs, eventsOf (specEntries spec) = Except.ok evs ∧
      res = (applyEvents evs []).map (fun pr => (pr.1, Resource.mk pr.1 pr.2)) := by
  unfold build_resources at h
  rw [buildTagMap_eq] at h
  cases he : eventsOf (specEntries spec) with
  | error msg =>
    rw [he, exceptMap_error, exceptMap_error] at h
    cases h
  | ok evs =>
    rw [he, exceptMap_ok, exceptMap_ok] at h
    refine ⟨evs, rfl, ?_⟩
    injection h with h'
    exact h'.symm

theorem effectiveTags_ne_nil (p : String) (s : OpSpec) (tags : List String)
    (h : effectiveTags p s = Except.ok tags) : tags ≠ [] := by
  unfold effectiveTags at h
  by_cases he : s.tags.isEmpty
  · rw [if_pos he] at h
    cases hc : convert_path_to_resource p with
    | error msg => rw [hc] at h; cases h
    | ok r =>
      rw [hc, exceptMap_ok] at h
      injection h with h'
      rw [← h']
      simp
  · rw [if_neg he] at h
    injection h with h'
    rw [← h']
    intro hn
    rw [hn] at he
    exact he rfl

theorem effectiveTags_of_empty (p : String) (s : OpSpec) (h : s.tags = []) :
    effectiveTags p s = (convert_path_to_resource p).map (fun r => [r]) := by
  unfold effectiveTags
  rw [if_pos (by simp [h])]

theorem effectiveTags_of_nonempty (p : String) (s : OpSpec) (h : s.tags ≠ []) :
    effectiveTags p s = Except.ok s.tags := by
  unfold effectiveTags
  rw [if_neg (by simpa using h)]

theorem entryEvents_def (p m : String) (s : OpSpec) :
    entryEvents (p, m, s) =
      (effectiveTags p s).map (fun tags =>
        tags.map (fun t =>
          (t, (Operation.from_spec p m s).operation_id,
            Operation.from_spec p m s))) := rfl

theorem entryEvents_ok (p m : String) (s : OpSpec) (evs : List Event)
    (h : entryEvents (p, m, s) = Except.ok evs) :
    ∃ tags, effectiveTags p s = Except.ok tags ∧
      evs = tags.map (fun t =>
        (t, (Operation.from_spec p m s).operation_id,
          Operation.from_spec p m s)) := by
  rw [entryEvents_def] at h
  cases het : effectiveTags p s with
  | error msg => rw [het, exceptMap_error] at h; cases h
  | ok tags =>
    rw [het, exceptMap_ok] at h
    injection h with h'
    exact ⟨tags, rfl, h'.symm⟩

/-- Every event of a successful run originates in one of the entries. -/
theorem mem_of_eventsOf :
    ∀ (l : List Entry) (evs : List Event), eventsOf l = Except.ok evs →
      ∀ ev ∈ evs, ∃ e ∈ l, ∃ evs_e, entryEvents e = Except.ok evs_e ∧ ev ∈ evs_e
  | [], evs, h => by
    injection h with h'
    rw [← h']
    intro ev hev
    cases hev
  | e :: rest, evs, h => by
    rw [eventsOf_cons] at h
    cases hee : entryEvents e with
    | error msg => rw [hee] at h; cases h
    | ok evs_e =>
      cases her : eventsOf rest with
      | error msg => rw [hee, her] at h; cases h
      | ok evsR =>
        rw [hee, her] at h
        injection h with h'
        rw [← h']
        intro ev hev
        rcases List.mem_append.mp hev with hl | hr
        · exact ⟨e, List.mem_cons_self _ _, evs_e, hee, hl⟩
        · obtain ⟨e', he', evs', hee', hev'⟩ := mem_of_eventsOf rest evsR her ev hr
          exact ⟨e', List.mem_cons_of_mem _ he', evs', hee', hev'⟩

/-- Every entry of a successful run resolved its events, and they are all
among the run's events. -/
theorem eventsOf_entry :
    ∀ (l : List Entry) (evs : List Event), eventsOf l = Except.ok evs →
      ∀ e ∈ l, ∃ evs_e, entryEvents e = Except.ok evs_e ∧ ∀ ev ∈ evs_e, ev ∈ evs
  | [], evs, h => by
    intro e he
    cases he
  | e :: rest, evs, h => by
    rw [eventsOf_cons] at h
    cases hee : entryEvents e with
    | error msg => rw [hee] at h; cases h
    | ok evs_e =>
      cases her : eventsOf rest with
      | error msg => rw [hee, her] at h; cases h
      | ok evsR =>
        rw [hee, her] at h
        injection h with h'
        intro e' he'
        rcases List.mem_cons.mp he' with rfl | he''
        · refine ⟨evs_e, hee, fun ev hev => ?_⟩
          rw [← h']
          exact List.mem_append.mpr (Or.inl hev)
        · obtain ⟨evs', hee', hsub⟩ := eventsOf_entry rest evsR her e' he''
          refine ⟨evs', hee', fun ev hev => ?_⟩
          rw [← h']
          exact List.mem_append.mpr (Or.inr (hsub ev hev))

theorem lastWrite_isSome (t i : String) :
    ∀ evs : List Event, (∃ ev ∈ evs, ev.1 = t ∧ ev.2.1 = i) →
      ∃ op, lastWrite t i evs = some op
  | [], h => by simp at h
  | e :: evs, h => by
    rw [lastWrite_cons]
    cases hlw : lastWrite t i evs with
    | some op => exact ⟨op, rfl⟩
    | none =>
      obtain ⟨ev, hmem, hm⟩ := h
      rcases List.mem_cons.mp hmem with rfl | hmem'
      · exact ⟨ev.2.2, by rw [if_pos hm]⟩
      · obtain ⟨op, hop⟩ := lastWrite_isSome t i evs ⟨ev, hmem', hm⟩
        rw [hop] at hlw
        cases hlw

/-- Central location lemma: in a successful run, an entry whose
`operation_id` no other entry produces has its Operation stored at its
`operation_id` in exactly the Resources named by its effective tag list. -/
theorem build_entry_located (spec : Spec) (res : List (String × Resource))
    (p m : String) (s : OpSpec)
    (hb : build_resources spec = Except.ok res)
    (he : (p, m, s) ∈ specEntries spec)
    (huniq : ∀ e' ∈ specEntries spec,
      e'.2.2.operation_id = s.operation_id → e' = (p, m, s)) :
    ∃ tags, effectiveTags p s = Except.ok tags ∧ tags ≠ [] ∧
      (∀ t ∈ tags, ∃ r, dictGet t res = some r ∧ r.name = t ∧
        dictGet s.operation_id r.operations =
          some (some (Operation.from_spec p m s))) ∧
      (∀ t, t ∉ tags → ∀ r, dictGet t res = some r →
        dictGet s.operation_id r.operations ≠
          some (some (Operation.from_spec p m s))) := by
  obtain ⟨evs, hevs, hres⟩ := build_resources_ok spec res hb
  obtain ⟨evs_e, hee, hsub⟩ := eventsOf_entry _ _ hevs (p, m, s) he
  obtain ⟨tags, het, hevse⟩ := entryEvents_ok p m s evs_e hee
  refine ⟨tags, het, effectiveTags_ne_nil p s tags het, ?_, ?_⟩
  · intro t htmem
    have hlw : lastWrite t s.operation_id evs =
        some (Operation.from_spec p m s) := by
      apply lastWrite_uniform
      · refine ⟨(t, s.operation_id, Operation.from_spec p m s), ?_, rfl, rfl⟩
        apply hsub
        rw [hevse]
        exact List.mem_map_of_mem _ htmem
      · intro ev hev h1 h2
        obtain ⟨e', he', evs', hee', hev'⟩ := mem_of_eventsOf _ _ hevs ev hev
        obtain ⟨p', m', s'⟩ := e'
        obtain ⟨tags', het', hevse'⟩ := entryEvents_ok p' m' s' evs' hee'
        rw [hevse'] at hev'
        obtain ⟨t', ht', hev''⟩ := List.mem_map.mp hev'
        have hid : s'.operation_id = s.operation_id := by
          rw [← hev''] at h2
          exact h2
        have heq : ((p', m', s') : Entry) = (p, m, s) := huniq (p', m', s') he' hid
        simp only [Prod.mk.injEq] at heq
        obtain ⟨rfl, rfl, rfl⟩ := heq
        rw [← hev'']
    have hopAt : opAt t s.operation_id (applyEvents evs []) =
        some (Operation.from_spec p m s) := by
      rw [opAt_applyEvents, hlw]
    obtain ⟨ops, hops, hid⟩ :=
      (opAt_eq_some_iff t s.operation_id _ _).mp hopAt
    refine ⟨Resource.mk t ops, ?_, rfl, hid⟩
    rw [hres, dictGet_resources, hops]
    rfl
  · intro t htn r hr hcontra
    rw [hres, dictGet_resources] at hr
    cases hops : dictGet t (applyEvents evs []) with
    | none => rw [hops] at hr; cases hr
    | some ops =>
      rw [hops, Option.map_some'] at hr
      injection hr with hr'
      subst hr'
      have hopAt : opAt t s.operation_id (applyEvents evs []) =
          some (Operation.from_spec p m s) :=
        (opAt_eq_some_iff _ _ _ _).mpr ⟨ops, hops, hcontra⟩
      have hlwn : lastWrite t s.operation_id evs = none := by
        apply lastWrite_eq_none
        rintro ev hev ⟨h1, h2⟩
        obtain ⟨e', he', evs', hee', hev'⟩ := mem_of_eventsOf _ _ hevs ev hev
        obtain ⟨p', m', s'⟩ := e'
        obtain ⟨tags', het', hevse'⟩ := entryEvents_ok p' m' s' evs' hee'
        rw [hevse'] at hev'
        obtain ⟨t', ht', hev''⟩ := List.mem_map.mp hev'
        have hid2 : s'.operation_id = s.operation_id := by
          rw [← hev''] at h2
          exact h2
        have heq : ((p', m', s') : Entry) = (p, m, s) := huniq _ he' hid2
        simp only [Prod.mk.injEq] at heq
        obtain ⟨rfl, rfl, rfl⟩ := heq
        rw [hee] at hee'
        injection hee' with hevdet
        rw [het] at het'
        injection het' with htagdet
        apply htn
        rw [← hev''] at h1
        rw [← h1, htagdet]
        exact ht'
      rw [opAt_applyEvents, hlwn] at hopAt
      simp [opAt, dictGet] at hopAt

/-- Every bucket ever materialised by the replayed inserts is non-empty. -/
theorem applyEvents_buckets_ne_nil :
    ∀ (evs : List Event) (m : TagMap),
      (∀ q ∈ m, q.2 ≠ ([] : OpsMap)) →
      ∀ q ∈ applyEvents evs m, q.2 ≠ ([] : OpsMap)
  | [], _, h => h
  | e :: evs, m, h => by
    rw [applyEvents_cons]
    apply applyEvents_buckets_ne_nil evs
    intro q hq
    unfold tagInsert at hq
    rcases snd_of_mem_dictInsert _ _ _ _ hq with h2 | h2
    · rw [h2]
      exact dictInsert_ne_nil _ _ _
    · exact h q h2

/-! ### Concrete specs used by the witnesses and the counterexample -/

/-- A small two-path spec: one untagged entry, one tagged entry. -/
def demoSpec : Spec :=
  ⟨[("/pet/findByStatus", [("get", ⟨[], "findPets"⟩)]),
    ("/store", [("get", ⟨["store"], "getInventory"⟩)])]⟩

/-- The result of `build_resources demoSpec`. -/
def demoRes : List (String × Resource) :=
  [("pet", ⟨"pet", [("findPets",
      some ⟨"/pet/findByStatus", "get", ⟨[], "findPets"⟩⟩)]⟩),
   ("store", ⟨"store", [("getInventory",
      some ⟨"/store", "get", ⟨["store"], "getInventory"⟩⟩)]⟩)]

/-- Two entries under tag `pet` sharing operation_id `dup`. -/
def dupSpec : Spec :=
  ⟨[("/pet", [("get", ⟨["pet"], "dup"⟩), ("put", ⟨["pet"], "dup"⟩)])]⟩

/-- The result of `build_resources dupSpec`: only the later entry's
Operation survives. -/
def dupRes : List (String × Resource) :=
  [("pet", ⟨"pet", [("dup", some ⟨"/pet", "put", ⟨["pet"], "dup"⟩⟩)]⟩)]

/-! ### The claims about `build_resources` -/

/-- C1 counterexample: the `get` entry of `dupSpec` is processed and
declares one tag, yet its Operation is reachable from *no* Resource: the
only Resource is `pet`, whose single binding holds the later `put`
entry's (distinct) Operation. -/
theorem build_resources_overwritten_entry :
    ("/pet", "get", (⟨["pet"], "dup"⟩ : OpSpec)) ∈ specEntries dupSpec ∧
    build_resources dupSpec = Except.ok dupRes ∧
    dupRes.map Prod.fst = ["pet"] ∧
    dictGet "pet" dupRes =
      some ⟨"pet", [("dup", some ⟨"/pet", "put", ⟨["pet"], "dup"⟩⟩)]⟩ ∧
    dictGet "dup"
        (Resource.mk "pet"
          [("dup", some ⟨"/pet", "put", ⟨["pet"], "dup"⟩⟩)]).operations ≠
      some (some (Operation.from_spec "/pet" "get" ⟨["pet"], "dup"⟩)) :=
  ⟨by decide, rfl, rfl, rfl, by decide⟩

/-- C1 (amended): for every processed operation entry whose operation_id
is produced by no other processed entry, the constructed Operation is
reachable, under its operation_id, from exactly the Resources named by
its (possibly synthesized) tag list: from every Resource whose name is in
the list (the same Operation value in each), and from no Resource whose
name is not. -/
theorem build_resources_tag_exactness (spec : Spec)
    (res : List (String × Resource)) (p m : String) (s : OpSpec)
    (hb : build_resources spec = Except.ok res)
    (he : (p, m, s) ∈ specEntries spec)
    (huniq : ∀ e' ∈ specEntries spec,
      e'.2.2.operation_id = s.operation_id → e' = (p, m, s)) :
    ∃ tags, effectiveTags p s = Except.ok tags ∧ tags ≠ [] ∧
      (∀ t ∈ tags, ∃ r, dictGet t res = some r ∧ r.name = t ∧
        dictGet s.operation_id r.operations =
          some (some (Operation.from_spec p m s))) ∧
      (∀ t, t ∉ tags → ∀ r, dictGet t res = some r →
        dictGet s.operation_id r.operations ≠
          some (some (Operation.from_spec p m s))) :=
  build_entry_located spec res p m s hb he huniq

/-- C1 witness: the tagged `getInventory` entry of `demoSpec` lands in the
`store` Resource under its operation_id. -/
theorem build_resources_tag_exactness_app :
    dictGet "getInventory"
        (Resource.mk "store" [("getInventory",
          some ⟨"/store", "get", ⟨["store"], "getInventory"⟩⟩)]).operations =
      some (some (Operation.from_spec "/store" "get" ⟨["store"], "getInventory"⟩)) := by
  obtain ⟨tags, het, -, hpos, -⟩ :=
    build_resources_tag_exactness demoSpec demoRes "/store" "get"
      ⟨["store"], "getInventory"⟩ rfl (by decide) (by decide)
  have htags : tags = ["store"] := by
    rw [show effectiveTags "/store" ⟨["store"], "getInventory"⟩ =
        Except.ok ["store"] from rfl] at het
    injection het with h
    exact h.symm
  subst htags
  obtain ⟨r, hr, -, hop⟩ := hpos "store" (List.mem_cons_self _ _)
  have hrv : r = Resource.mk "store" [("getInventory",
      some ⟨"/store", "get", ⟨["store"], "getInventory"⟩⟩)] := by
    rw [show dictGet "store" demoRes = some (Resource.mk "store" [("getInventory",
        some ⟨"/store", "get", ⟨["store"], "getInventory"⟩⟩)]) from rfl] at hr
    injection hr with h
    exact h.symm
  subst hrv
  exact hop

/-- C4: an entry whose resolved tag list is empty contributes exactly one
insertion, under the synthetic tag derived from its path name (its first
path segment), and the resulting Resource of that name holds its
operation_id. -/
theorem build_resources_synthetic_tag (spec : Spec)
    (res : List (String × Resource)) (p m : String) (s : OpSpec)
    (hb : build_resources spec = Except.ok res)
    (he : (p, m, s) ∈ specEntries spec)
    (hno : s.tags = []) :
    ∃ t, convert_path_to_resource p = Except.ok t ∧
      effectiveTags p s = Except.ok [t] ∧
      entryEvents (p, m, s) =
        Except.ok [(t, s.operation_id, Operation.from_spec p m s)] ∧
      ∃ r, dictGet t res = some r ∧ r.name = t ∧
        ∃ op, dictGet s.operation_id r.operations = some (some op) := by
  obtain ⟨evs, hevs, hres⟩ := build_resources_ok spec res hb
  obtain ⟨evs_e, hee, hsub⟩ := eventsOf_entry _ _ hevs (p, m, s) he
  obtain ⟨tags, het, hevse⟩ := entryEvents_ok p m s evs_e hee
  rw [effectiveTags_of_empty p s hno] at het
  cases hc : convert_path_to_resource p with
  | error msg => rw [hc, exceptMap_error] at het; cases het
  | ok t =>
    rw [hc, exceptMap_ok] at het
    injection het with htag
    refine ⟨t, rfl, ?_, ?_, ?_⟩
    · rw [effectiveTags_of_empty p s hno, hc, exceptMap_ok]
    · rw [entryEvents_def, effectiveTags_of_empty p s hno, hc, exceptMap_ok,
        exceptMap_ok]
      rfl
    · have hmem : (t, s.operation_id, Operation.from_spec p m s) ∈ evs := by
        apply hsub
        rw [hevse, ← htag]
        exact List.mem_singleton.mpr rfl
      obtain ⟨op', hlw⟩ :=
        lastWrite_isSome t s.operation_id evs ⟨_, hmem, rfl, rfl⟩
      have hop : opAt t s.operation_id (applyEvents evs []) = some op' := by
        rw [opAt_applyEvents, hlw]
      obtain ⟨ops, hops, hid⟩ := (opAt_eq_some_iff _ _ _ _).mp hop
      refine ⟨Resource.mk t ops, ?_, rfl, op', hid⟩
      rw [hres, dictGet_resources, hops]
      rfl

/-- C4 witness: the untagged entry under `/pet/findByStatus` is grouped
under the derived tag `pet` (not `findByStatus`). -/
theorem build_resources_synthetic_tag_app :
    effectiveTags "/pet/findByStatus" ⟨[], "findPets"⟩ = Except.ok ["pet"] ∧
    entryEvents ("/pet/findByStatus", "get", ⟨[], "findPets"⟩) =
      Except.ok [("pet", "findPets",
        Operation.from_spec "/pet/findByStatus" "get" ⟨[], "findPets"⟩)] ∧
    dictGet "pet" demoRes ≠ none := by
  obtain ⟨t, hc, heff, hev, r, hr, -, -⟩ :=
    build_resources_synthetic_tag demoSpec demoRes "/pet/findByStatus" "get"
      ⟨[], "findPets"⟩ rfl (by decide) rfl
  have ht : t = "pet" := by
    rw [show convert_path_to_resource "/pet/findByStatus" = Except.ok "pet"
        from rfl] at hc
    injection hc with h
    exact h.symm
  subst ht
  exact ⟨heff, hev, by rw [hr]; simp⟩

/-- Entries keyed `parameters` removed from every path of a spec. -/
def dropParameters : List (String × OpSpec) → List (String × OpSpec)
  | [] => []
  | (m, s) :: rest =>
    if m = "parameters" then dropParameters rest
    else (m, s) :: dropParameters rest

def stripParameters (spec : Spec) : Spec :=
  ⟨spec.paths.map (fun pe => (pe.1, dropParameters pe.2))⟩

theorem pathEntries_dropParameters (p : String) :
    ∀ mes : List (String × OpSpec),
      pathEntries p (dropParameters mes) = pathEntries p mes
  | [] => rfl
  | (m, s) :: rest => by
    by_cases hm : m = "parameters"
    · rw [show dropParameters ((m, s) :: rest) = dropParameters rest from by
          simp [dropParameters, hm]]
      rw [pathEntries_dropParameters p rest,
        show pathEntries p ((m, s) :: rest) = pathEntries p rest from by
          simp [pathEntries, hm]]
    · rw [show dropParameters ((m, s) :: rest) = (m, s) :: dropParameters rest
          from by simp [dropParameters, hm]]
      rw [show pathEntries p ((m, s) :: dropParameters rest) =
          (p, m, s) :: pathEntries p (dropParameters rest) from by
            simp [pathEntries, hm]]
      rw [pathEntries_dropParameters p rest,
        show pathEntries p ((m, s) :: rest) = (p, m, s) :: pathEntries p rest
          from by simp [pathEntries, hm]]

theorem specEntries_stripParameters (spec : Spec) :
    specEntries (stripParameters spec) = specEntries spec := by
  unfold specEntries stripParameters
  induction spec.paths with
  | nil => rfl
  | cons pe rest ih =>
    rw [List.map_cons, List.foldr_cons, List.foldr_cons, ih,
      pathEntries_dropParameters]

/-- C5: a method-level entry keyed exactly `parameters` is never treated
as an operation: processing it leaves the accumulated groups untouched,
and removing all such entries from a spec leaves `build_resources`'s
result unchanged. -/
theorem parameters_entries_inert :
    (∀ (p : String) (s : OpSpec) (acc : TagMap),
      processEntry p acc ("parameters", s) = Except.ok acc) ∧
    (∀ spec : Spec,
      build_resources (stripParameters spec) = build_resources spec) := by
  constructor
  · intro p s acc
    simp [processEntry]
  · intro spec
    unfold build_resources
    rw [buildTagMap_eq, buildTagMap_eq, specEntries_stripParameters]

/-- C6: when two entries share a tag and produce the same operation_id,
the later entry's Operation is the one retained in that tag's Resource;
the build still succeeds (no diagnostic, no error). -/
theorem build_resources_last_write_wins
    (p1 m1 p2 m2 : String) (s1 s2 : OpSpec) (t : String)
    (hm1 : m1 ≠ "parameters") (hm2 : m2 ≠ "parameters")
    (ht1 : t ∈ s1.tags) (ht2 : t ∈ s2.tags)
    (hid : s1.operation_id = s2.operation_id) :
    ∃ res,
      build_resources ⟨[(p1, [(m1, s1)]), (p2, [(m2, s2)])]⟩ = Except.ok res ∧
      ∃ r, dictGet t res = some r ∧
        dictGet s2.operation_id r.operations =
          some (some (Operation.from_spec p2 m2 s2)) := by
  have he1 : entryEvents (p1, m1, s1) = Except.ok (s1.tags.map (fun t' =>
      (t', (Operation.from_spec p1 m1 s1).operation_id,
        Operation.from_spec p1 m1 s1))) := by
    rw [entryEvents_def, effectiveTags_of_nonempty _ _ (List.ne_nil_of_mem ht1),
      exceptMap_ok]
  have he2 : entryEvents (p2, m2, s2) = Except.ok (s2.tags.map (fun t' =>
      (t', (Operation.from_spec p2 m2 s2).operation_id,
        Operation.from_spec p2 m2 s2))) := by
    rw [entryEvents_def, effectiveTags_of_nonempty _ _ (List.ne_nil_of_mem ht2),
      exceptMap_ok]
  have hse : specEntries ⟨[(p1, [(m1, s1)]), (p2, [(m2, s2)])]⟩ =
      [(p1, m1, s1), (p2, m2, s2)] := by
    simp [specEntries, pathEntries, hm1, hm2]
  have hev2 : eventsOf [(p2, m2, s2)] = Except.ok (s2.tags.map (fun t' =>
      (t', (Operation.from_spec p2 m2 s2).operation_id,
        Operation.from_spec p2 m2 s2))) := by
    rw [eventsOf_cons, he2]
    show Except.ok _ = _
    rw [List.append_nil]
  have hev : eventsOf [(p1, m1, s1), (p2, m2, s2)] =
      Except.ok (s1.tags.map (fun t' =>
          (t', (Operation.from_spec p1 m1 s1).operation_id,
            Operation.from_spec p1 m1 s1)) ++
        s2.tags.map (fun t' =>
          (t', (Operation.from_spec p2 m2 s2).operation_id,
            Operation.from_spec p2 m2 s2))) := by
    rw [eventsOf_cons, he1, hev2]
  have hb : build_resources ⟨[(p1, [(m1, s1)]), (p2, [(m2, s2)])]⟩ =
      Except.ok ((applyEvents (s1.tags.map (fun t' =>
          (t', (Operation.from_spec p1 m1 s1).operation_id,
            Operation.from_spec p1 m1 s1)) ++
        s2.tags.map (fun t' =>
          (t', (Operation.from_spec p2 m2 s2).operation_id,
            Operation.from_spec p2 m2 s2))) []).map
        (fun pr => (pr.1, Resource.mk pr.1 pr.2))) := by
    unfold build_resources
    rw [buildTagMap_eq, hse, hev, exceptMap_ok, exceptMap_ok]
  refine ⟨_, hb, ?_⟩
  have hlw2 : lastWrite t s2.operation_id (s2.tags.map (fun t' =>
      (t', (Operation.from_spec p2 m2 s2).operation_id,
        Operation.from_spec p2 m2 s2))) =
      some (Operation.from_spec p2 m2 s2) := by
    apply lastWrite_uniform
    · exact ⟨(t, s2.operation_id, Operation.from_spec p2 m2 s2),
        List.mem_map_of_mem _ ht2, rfl, rfl⟩
    · intro ev hev' h1 h2
      obtain ⟨t', ht', rfl⟩ := List.mem_map.mp hev'
      rfl
  have hop : opAt t s2.operation_id
      (applyEvents (s1.tags.map (fun t' =>
          (t', (Operation.from_spec p1 m1 s1).operation_id,
            Operation.from_spec p1 m1 s1)) ++
        s2.tags.map (fun t' =>
          (t', (Operation.from_spec p2 m2 s2).operation_id,
            Operation.from_spec p2 m2 s2))) []) =
      some (Operation.from_spec p2 m2 s2) := by
    rw [applyEvents_append, opAt_applyEvents, hlw2]
  obtain ⟨ops, hops, hidg⟩ := (opAt_eq_some_iff _ _ _ _).mp hop
  refine ⟨Resource.mk t ops, ?_, hidg⟩
  rw [dictGet_resources, hops]
  rfl

/-- C6 witness: two entries tagged `pet` with operation_id `dup`: the
later (`/b`) entry's Operation is the one retained. -/
theorem build_resources_last_write_wins_app :
    dictGet "dup"
        (Resource.mk "pet"
          [("dup", some ⟨"/b", "get", ⟨["pet"], "dup"⟩⟩)]).operations =
      some (some (Operation.from_spec "/b" "get" ⟨["pet"], "dup"⟩)) := by
  obtain ⟨res, hres, r, hr, hop⟩ :=
    build_resources_last_write_wins "/a" "get" "/b" "get"
      ⟨["pet"], "dup"⟩ ⟨["pet"], "dup"⟩ "pet"
      (by decide) (by decide) (by decide) (by decide) rfl
  have hresv : res = [("pet", Resource.mk "pet"
      [("dup", some ⟨"/b", "get", ⟨["pet"], "dup"⟩⟩)])] := by
    rw [show build_resources ⟨[("/a", [("get", ⟨["pet"], "dup"⟩)]),
        ("/b", [("get", ⟨["pet"], "dup"⟩)])]⟩ =
        Except.ok [("pet", Resource.mk "pet"
          [("dup", some ⟨"/b", "get", ⟨["pet"], "dup"⟩⟩)])] from rfl] at hres
    injection hres with h
    exact h.symm
  subst hresv
  have hrv : r = Resource.mk "pet"
      [("dup", some ⟨"/b", "get", ⟨["pet"], "dup"⟩⟩)] := by
    rw [show dictGet "pet" [("pet", Resource.mk "pet"
        [("dup", some ⟨"/b", "get", ⟨["pet"], "dup"⟩⟩)])] =
        some (Resource.mk "pet"
          [("dup", some ⟨"/b", "get", ⟨["pet"], "dup"⟩⟩)]) from rfl] at hr
    injection hr with h
    exact h.symm
  subst hrv
  exact hop

/-- C8: `build_resources` is deterministic over its input: two successful
runs on the same spec yield the same tag names and, per tag, the same
operation_id keys. -/
theorem build_resources_deterministic (spec : Spec)
    (res1 res2 : List (String × Resource))
    (h1 : build_resources spec = Except.ok res1)
    (h2 : build_resources spec = Except.ok res2) :
    res1.map Prod.fst = res2.map Prod.fst ∧
    ∀ t, (dictGet t res1).map (fun r => r.operations.map Prod.fst) =
      (dictGet t res2).map (fun r => r.operations.map Prod.fst) := by
  rw [h1] at h2
  injection h2 with h
  subst h
  exact ⟨rfl, fun _ => rfl⟩

/-- C8 witness: two runs on `demoSpec`. -/
theorem build_resources_deterministic_app :
    build_resources demoSpec = Except.ok demoRes ∧
    demoRes.map Prod.fst = demoRes.map Prod.fst ∧
    (dictGet "pet" demoRes).map (fun r => r.operations.map Prod.fst) =
      (dictGet "pet" demoRes).map (fun r => r.operations.map Prod.fst) :=
  ⟨rfl, (build_resources_deterministic demoSpec demoRes demoRes rfl rfl).1,
    (build_resources_deterministic demoSpec demoRes demoRes rfl rfl).2 "pet"⟩

/-- C9: in any successful result, every Resource's `name` equals its key
in the mapping, and no Resource holds zero operations. -/
theorem build_resources_buckets (spec : Spec)
    (res : List (String × Resource))
    (hb : build_resources spec = Except.ok res) :
    ∀ pr ∈ res, pr.2.name = pr.1 ∧ pr.2.operations ≠ [] := by
  obtain ⟨evs, hevs, hres⟩ := build_resources_ok spec res hb
  intro pr hpr
  rw [hres] at hpr
  obtain ⟨pr', hpr', heq⟩ := List.mem_map.mp hpr
  subst heq
  exact ⟨rfl,
    applyEvents_buckets_ne_nil evs [] (fun q hq => absurd hq (by simp))
      pr' hpr'⟩

/-- C9 witness: the `pet` Resource of `demoSpec`'s result. -/
theorem build_resources_buckets_app :
    build_resources demoSpec = Except.ok demoRes ∧
    (Resource.mk "pet" [("findPets",
        some ⟨"/pet/findByStatus", "get", ⟨[], "findPets"⟩⟩)]).name = "pet" ∧
    (Resource.mk "pet" [("findPets",
        some ⟨"/pet/findByStatus", "get", ⟨[], "findPets"⟩⟩)]).operations ≠ [] :=
  ⟨rfl,
    (build_resources_buckets demoSpec demoRes rfl
      ("pet", Resource.mk "pet" [("findPets",
        some ⟨"/pet/findByStatus", "get", ⟨[], "findPets"⟩⟩)]) (by decide)).1,
    (build_resources_buckets demoSpec demoRes rfl
      ("pet", Resource.mk "pet" [("findPets",
        some ⟨"/pet/findByStatus", "get", ⟨[], "findPets"⟩⟩)]) (by decide)).2⟩

end BravadoCore
